import Mathlib

/-!
# Brian's Brain (`brain.c`): grid, simulation step, input handlers, main loop

A shallow embedding of the simulation core of `src/brain.c`.

* The two pixel buffers (`ctx->shm_ptr` and `ctx->backbuffer`, both viewed in the source as
  `uint32_t (*)[WIN_W]`) are total maps from in-range (row, column) pairs to 32-bit words.
  Every C array access goes through `load` / `store`, which fail (`none`) outside
  `0 ≤ row < H`, `0 ≤ column < W`; a function that returns `some _` therefore made
  no out-of-bounds access.
* The dimension macros are parameters `W H` of the definitions; the program is the
  instance `WIN_W`, `WIN_H`.
* `int` values are `Int`; `%` on `int` is C's truncating remainder, `Int.tmod`.
* `main` is a state machine over the events that `xcb_poll_for_event` delivers; the X11
  calls, the clock and the pacing sleep are not modelled.
-/

namespace Brain

/-! ## Constants -/

/-- Source: `#define WIN_W 256`. -/
def WIN_W : Nat := 256

/-- Source: `#define WIN_H 256`. -/
def WIN_H : Nat := 256

/-- Source: `#define STATE_READY 0`. -/
def STATE_READY : Nat := 0

/-- Source: `#define STATE_REFRACTORY 0xff0000ff`. -/
def STATE_REFRACTORY : Nat := 0xff0000ff

/-- Source: `#define STATE_FIRING 0xffffffff`. -/
def STATE_FIRING : Nat := 0xffffffff

/-- Event code of the X11 core protocol (`xcb/xproto.h`). -/
def XCB_KEY_PRESS : Nat := 2

/-- Event code of the X11 core protocol (`xcb/xproto.h`). -/
def XCB_MOTION_NOTIFY : Nat := 6

/-- Event code of the X11 core protocol (`xcb/xproto.h`). -/
def XCB_CLIENT_MESSAGE : Nat := 33

/-- Key symbol from `X11/keysymdef.h`. -/
def XK_Escape : Nat := 0xff1b

/-- Key symbol from `X11/keysymdef.h`. -/
def XK_q : Nat := 0x71

/-- Key symbol from `X11/keysymdef.h`. -/
def XK_r : Nat := 0x72

/-- Key symbol from `X11/keysymdef.h`. -/
def XK_s : Nat := 0x73

/-- Key symbol from `X11/keysymdef.h`. -/
def XK_a : Nat := 0x61

/-- Key symbol from `X11/keysymdef.h`. -/
def XK_d : Nat := 0x64

/-! ## Buffers -/

/-- A pixel buffer of `H` rows of `W` words: `uint32_t (*)[WIN_W]`, indexed `[row][column]`. -/
abbrev Grid (W H : Nat) : Type := Fin H → Fin W → Nat

/-- Buffer of zero words: what `calloc` returns, what `memset(_, 0, WIN_W * WIN_H * 4)`
leaves, and what a fresh System V shared-memory segment holds. -/
def zeroed (W H : Nat) : Grid W H := fun _ _ => 0

/-- The read `p[r][c]` with `int` indices; `none` when an index is outside the buffer. -/
def load {W H : Nat} (p : Grid W H) (r c : Int) : Option Nat :=
  if h : 0 ≤ r ∧ r < H ∧ 0 ≤ c ∧ c < W then
    some (p ⟨r.toNat, by omega⟩ ⟨c.toNat, by omega⟩)
  else none

/-- The write `p[r][c] = v` with `int` indices; `none` when an index is outside the buffer. -/
def store {W H : Nat} (p : Grid W H) (r c : Int) (v : Nat) : Option (Grid W H) :=
  if 0 ≤ r ∧ r < H ∧ 0 ≤ c ∧ c < W then
    some (fun i j => if (i.val : Int) = r ∧ (j.val : Int) = c then v else p i j)
  else none

/-! ## `get_adjacent` and `simulation_step` -/

/-- Source: `get_adjacent` (lines 145-162). The eight reads in the order `adj[0..7]`. -/
def get_adjacent (W H : Nat) (x y : Int) (ptr : Grid W H) : Option (List Nat) :=
  let left := Int.tmod (x + W - 1) W
  let right := Int.tmod (x + 1) W
  let up := Int.tmod (y + H - 1) H
  let down := Int.tmod (y + 1) H
  do
    let a0 ← load ptr up left
    let a1 ← load ptr up x
    let a2 ← load ptr up right
    let a3 ← load ptr y left
    let a4 ← load ptr y right
    let a5 ← load ptr down left
    let a6 ← load ptr down x
    let a7 ← load ptr down right
    pure [a0, a1, a2, a3, a4, a5, a6, a7]

/-- Source: the loop `for(i = 0; i < 8; ++i) if(adjacent[i] == STATE_FIRING) ++count;`
(lines 175-180). -/
def count_firing (adjacent : List Nat) : Nat :=
  adjacent.foldl (fun count a => if a = STATE_FIRING then count + 1 else count) 0

/-- Source: the body of the inner loop of `simulation_step` (lines 173-186) for one `(x, y)`:
reads come from `ptr`, the only write goes to `tmp`, and when neither condition holds
nothing is written. `cur` is `ptr[y][x]`, which the source reads in the first condition
when `count == 2` and in the second condition otherwise. -/
def step_cell (W H : Nat) (ptr tmp : Grid W H) (y x : Nat) : Option (Grid W H) := do
  let adjacent ← get_adjacent W H x y ptr
  let count := count_firing adjacent
  let cur ← load ptr y x
  if count = 2 ∧ cur = STATE_READY then store tmp y x STATE_FIRING
  else if cur = STATE_FIRING then store tmp y x STATE_REFRACTORY
  else pure tmp

/-- Source: `for(int x = 0; x < WIN_W; ++x)` (line 172) for one row `y`. -/
def step_row (W H : Nat) (ptr tmp : Grid W H) (y : Nat) : Option (Grid W H) :=
  (List.range W).foldlM (fun t x => step_cell W H ptr t y x) tmp

/-- Source: `simulation_step` (lines 164-192). Takes the contents of `ctx->shm_ptr` and
`ctx->backbuffer`, returns their contents on return: `memcpy(ptr, tmp, ..)` publishes the
scratch buffer, `memset(tmp, 0, ..)` clears it. -/
def simulation_step (W H : Nat) (ptr tmp : Grid W H) : Option (Grid W H × Grid W H) := do
  let t ← (List.range H).foldlM (fun t y => step_row W H ptr t y) tmp
  pure (t, zeroed W H)

/-- Iterates `simulation_step` `n` times on the pair (grid, scratch). -/
def run_steps (W H : Nat) : Nat → Grid W H × Grid W H → Option (Grid W H × Grid W H)
  | 0, s => some s
  | n + 1, s => (simulation_step W H s.1 s.2).bind fun s1 => run_steps W H n s1

/-! ## Input handlers of `main` -/

/-- Source: lines 231-237, key `s`. -/
def stamp_block (W H : Nat) (ptr : Grid W H) : Option (Grid W H) := do
  let p ← store ptr ((H : Int) / 2 + 0) ((W : Int) / 2 + 0) STATE_FIRING
  let p ← store p ((H : Int) / 2 + 0) ((W : Int) / 2 + 1) STATE_FIRING
  let p ← store p ((H : Int) / 2 + 1) ((W : Int) / 2 + 0) STATE_FIRING
  store p ((H : Int) / 2 + 1) ((W : Int) / 2 + 1) STATE_FIRING

/-- Source: lines 240-247, key `a`. -/
def stamp_horizontal (W H : Nat) (ptr : Grid W H) : Option (Grid W H) := do
  let p ← store ptr ((H : Int) / 2 + 0) ((W : Int) / 2 - 1) STATE_FIRING
  let p ← store p ((H : Int) / 2 + 0) ((W : Int) / 2 + 2) STATE_FIRING
  let p ← store p ((H : Int) / 2 + 1) ((W : Int) / 2 - 1) STATE_FIRING
  store p ((H : Int) / 2 + 1) ((W : Int) / 2 + 2) STATE_FIRING

/-- Source: lines 250-257, key `d`. -/
def stamp_vertical (W H : Nat) (ptr : Grid W H) : Option (Grid W H) := do
  let p ← store ptr ((H : Int) / 2 - 1) ((W : Int) / 2 + 0) STATE_FIRING
  let p ← store p ((H : Int) / 2 - 1) ((W : Int) / 2 + 1) STATE_FIRING
  let p ← store p ((H : Int) / 2 + 2) ((W : Int) / 2 + 0) STATE_FIRING
  store p ((H : Int) / 2 + 2) ((W : Int) / 2 + 1) STATE_FIRING

/-- Source: lines 225-257, what a key press with key symbol `sym` does to `ctx.shm_ptr`
(the quit keys are handled in `key_press`): four independent `if`s in source order. -/
def key_grid (W H : Nat) (sym : Nat) (ptr : Grid W H) : Option (Grid W H) :=
  let p := if sym = XK_r then zeroed W H else ptr
  (if sym = XK_s then stamp_block W H p else some p).bind fun p =>
  (if sym = XK_a then stamp_horizontal W H p else some p).bind fun p =>
  if sym = XK_d then stamp_vertical W H p else some p

/-- Source: lines 260-270, what a motion event at `(event_x, event_y)` does to
`ctx.shm_ptr`. The coordinates are `int16_t` in the event and promoted to `int`. -/
def motion_notify (W H : Nat) (ptr : Grid W H) (event_x event_y : Int) : Option (Grid W H) :=
  if event_x ≥ 0 ∧ event_x < W ∧ event_y ≥ 0 ∧ event_y < H then
    store ptr event_y event_x STATE_FIRING
  else some ptr

/-! ## The main loop -/

/-- The fields of an `xcb_generic_event_t` that `main` looks at. `keysym` stands for the
value `event_to_keysym(&ctx, e)` yields for the event: the source function has no
`return` statement, so its result is an input of the model. -/
structure Event where
  response_type : Nat
  keysym : Nat
  event_x : Int
  event_y : Int
  data32_0 : Nat

/-- The part of `struct context` and of `main`'s locals that the loop uses.
`returned` records that `main` has executed `return 0`. `steps` and `draws` are ghost
counters of the calls of `simulation_step` and `draw_window`. -/
structure MainState (W H : Nat) where
  shm_ptr : Grid W H
  backbuffer : Grid W H
  shm_complete_event : Nat
  delete_win_atom : Nat
  redraw : Bool
  returned : Bool
  steps : Nat
  draws : Nat

/-- Source: lines 203-212. State on entry to `while(1)`: the shared-memory segment is fresh
(zero-filled by the kernel), the back buffer comes from `calloc`, `draw_window` has been
called once and `redraw` is `false`. The event code and the atom come from the X server. -/
def startup (W H : Nat) (shm_complete_event delete_win_atom : Nat) : MainState W H :=
  { shm_ptr := zeroed W H
    backbuffer := zeroed W H
    shm_complete_event := shm_complete_event
    delete_win_atom := delete_win_atom
    redraw := false
    returned := false
    steps := 0
    draws := 1 }

/-- Source: lines 222-257, the body of the `XCB_KEY_PRESS` branch for the key symbol `sym`. -/
def key_press {W H : Nat} (s : MainState W H) (sym : Nat) : Option (MainState W H) :=
  if sym = XK_Escape ∨ sym = XK_q then some { s with returned := true }
  else (key_grid W H sym s.shm_ptr).map fun p => { s with shm_ptr := p }

/-- Source: line 219, `e->response_type &= ~0x80` on the 8-bit field. -/
def event_code (e : Event) : Nat := Nat.land e.response_type 0x7f

/-- Source: lines 221-258, `if(e->response_type == XCB_KEY_PRESS){ .. }`. -/
def on_key_press {W H : Nat} (s : MainState W H) (e : Event) : Option (MainState W H) :=
  if event_code e = XCB_KEY_PRESS then key_press s e.keysym else some s

/-- Source: lines 260-270, `if(e->response_type == XCB_MOTION_NOTIFY){ .. }`. -/
def on_motion_notify {W H : Nat} (s : MainState W H) (e : Event) : Option (MainState W H) :=
  if event_code e = XCB_MOTION_NOTIFY then
    (motion_notify W H s.shm_ptr e.event_x e.event_y).map fun p => { s with shm_ptr := p }
  else some s

/-- Source: lines 272-274, `if(e->response_type == ctx.shm_complete_event) redraw = true;`. -/
def on_shm_complete {W H : Nat} (s : MainState W H) (e : Event) : MainState W H :=
  if event_code e = s.shm_complete_event then { s with redraw := true } else s

/-- Source: lines 276-281, `if(e->response_type == XCB_CLIENT_MESSAGE){ .. return 0; }`. -/
def on_client_message {W H : Nat} (s : MainState W H) (e : Event) : MainState W H :=
  if event_code e = XCB_CLIENT_MESSAGE ∧ e.data32_0 = s.delete_win_atom then
    { s with returned := true }
  else s

/-- Source: lines 219-283, the body of the event loop for one event `e`: the four `if`
blocks in source order; a `return 0` in the key branch skips the rest. -/
def handle_event {W H : Nat} (s : MainState W H) (e : Event) : Option (MainState W H) :=
  (on_key_press s e).bind fun s1 =>
  if s1.returned then some s1
  else (on_motion_notify s1 e).bind fun s2 =>
    some (on_client_message (on_shm_complete s2 e) e)

/-- Source: `while((e = xcb_poll_for_event(ctx.xcb)))` (lines 218-284) over the events
pending at this moment; nothing runs once `main` has returned. -/
def drain {W H : Nat} (s : MainState W H) : List Event → Option (MainState W H)
  | [] => some s
  | e :: es =>
    if s.returned then some s
    else (handle_event s e).bind fun s1 => drain s1 es

/-- Source: lines 286-290, `if(redraw){ simulation_step; draw_window; redraw = false; }`. -/
def redraw_step {W H : Nat} (s : MainState W H) : Option (MainState W H) :=
  if s.redraw then
    (simulation_step W H s.shm_ptr s.backbuffer).map fun r =>
      { s with shm_ptr := r.1, backbuffer := r.2, steps := s.steps + 1,
               draws := s.draws + 1, redraw := false }
  else some s

/-- Source: one iteration of `while(1)` (lines 214-302) given the pending events; the
pacing sleep (lines 292-295) is not modelled. -/
def iteration {W H : Nat} (s : MainState W H) (pending : List Event) :
    Option (MainState W H) :=
  (drain s pending).bind fun s1 => if s1.returned then some s1 else redraw_step s1

/-- The loop `while(1)` over a finite sequence of iterations, each with its pending events. -/
def main_loop {W H : Nat} (s : MainState W H) : List (List Event) → Option (MainState W H)
  | [] => some s
  | pending :: rest =>
    if s.returned then some s
    else (iteration s pending).bind fun s1 => main_loop s1 rest

/-! ## Grid operations as a sequence -/

/-- The operations of the program on the pair (grid, scratch buffer). -/
inductive GridOp where
  | step
  | pointer (px py : Int)
  | reset
  | stamp_block
  | stamp_horizontal
  | stamp_vertical

/-- One operation, by the code that carries it out: `simulation_step`, the motion handler,
or the key handler with the key symbol of the command. -/
def apply_op (W H : Nat) (s : Grid W H × Grid W H) : GridOp → Option (Grid W H × Grid W H)
  | GridOp.step => simulation_step W H s.1 s.2
  | GridOp.pointer px py => (motion_notify W H s.1 px py).map (fun p => (p, s.2))
  | GridOp.reset => (key_grid W H XK_r s.1).map (fun p => (p, s.2))
  | GridOp.stamp_block => (key_grid W H XK_s s.1).map (fun p => (p, s.2))
  | GridOp.stamp_horizontal => (key_grid W H XK_a s.1).map (fun p => (p, s.2))
  | GridOp.stamp_vertical => (key_grid W H XK_d s.1).map (fun p => (p, s.2))

/-- A finite sequence of operations, left to right. -/
def run_ops (W H : Nat) (s : Grid W H × Grid W H) : List GridOp → Option (Grid W H × Grid W H)
  | [] => some s
  | op :: ops => (apply_op W H s op).bind fun s1 => run_ops W H s1 ops

/-! ## Specification-side definitions -/

/-- Total read of a buffer by natural indices (0 outside the buffer); used to state results. -/
def cell {W H : Nat} (p : Grid W H) (r c : Nat) : Nat :=
  if h : r < H ∧ c < W then p ⟨r, h.1⟩ ⟨c, h.2⟩ else 0

/-- Spec §4.1 `get(x, y)`: `x`, `y` taken modulo `W`, `H` (mathematical modulo). -/
def spec_get {W H : Nat} (g : Grid W H) (x y : Int) : Nat :=
  cell g (y % (H : Int)).toNat (x % (W : Int)).toNat

/-- Spec: the Moore neighbourhood as offsets `(dx, dy)`, all of `{-1,0,1}²` except `(0,0)`,
listed in the order of `adj[0..7]`. -/
def spec_offsets : List (Int × Int) :=
  [(-1, -1), (0, -1), (1, -1), (-1, 0), (1, 0), (-1, 1), (0, 1), (1, 1)]

/-- Spec §4.1 `neighbors(x, y)`: the cells at the eight offsets, with wrap-around. -/
def spec_neighbors {W H : Nat} (g : Grid W H) (x y : Int) : List Nat :=
  spec_offsets.map (fun d => spec_get g (x + d.1) (y + d.2))

/-- Spec §4.2: how many of the eight neighbours of `(x, y)` are `Firing`. -/
def spec_firing_count {W H : Nat} (g : Grid W H) (x y : Int) : Nat :=
  ((spec_neighbors g x y).filter (fun v => decide (v = STATE_FIRING))).length

/-- Spec §4.2: the transition table, on the state of a cell and its firing-neighbour count. -/
def spec_rule (state count : Nat) : Nat :=
  if state = STATE_READY then (if count = 2 then STATE_FIRING else STATE_READY)
  else if state = STATE_FIRING then STATE_REFRACTORY
  else STATE_READY

/-- A cell value is one of the three states. -/
def valid_state (v : Nat) : Prop :=
  v = STATE_READY ∨ v = STATE_FIRING ∨ v = STATE_REFRACTORY

/-- Grid that is `Ready` everywhere except for the value `v` at row `cy`, column `cx`. -/
def lone (W H : Nat) (cy cx : Nat) (v : Nat) : Grid W H :=
  fun i j => if i.val = cy ∧ j.val = cx then v else STATE_READY

/-! ## Closed forms used in the proofs -/

/-- The index `(k + n - 1) % n` of `get_adjacent` on naturals. -/
def wrap_dec (n k : Nat) : Nat := (k + n - 1) % n

/-- The index `(k + 1) % n` of `get_adjacent` on naturals. -/
def wrap_inc (n k : Nat) : Nat := (k + 1) % n

/-- The list `get_adjacent` returns at an in-range `(x, y)`. -/
def adjacent_cells {W H : Nat} (p : Grid W H) (y x : Nat) : List Nat :=
  [cell p (wrap_dec H y) (wrap_dec W x), cell p (wrap_dec H y) x,
   cell p (wrap_dec H y) (wrap_inc W x),
   cell p y (wrap_dec W x), cell p y (wrap_inc W x),
   cell p (wrap_inc H y) (wrap_dec W x), cell p (wrap_inc H y) x,
   cell p (wrap_inc H y) (wrap_inc W x)]

/-- The word the scratch buffer holds at `(y, x)` after `step_cell`. -/
def next_cell {W H : Nat} (ptr tmp : Grid W H) (y x : Nat) : Nat :=
  if count_firing (adjacent_cells ptr y x) = 2 ∧ cell ptr y x = STATE_READY then STATE_FIRING
  else if cell ptr y x = STATE_FIRING then STATE_REFRACTORY
  else cell tmp y x

/-- Positions (row, column) written by `stamp_block` (lines 233-236). -/
def block_cells (W H : Nat) : List (Nat × Nat) :=
  [(H / 2, W / 2), (H / 2, W / 2 + 1), (H / 2 + 1, W / 2), (H / 2 + 1, W / 2 + 1)]

/-- Positions (row, column) written by `stamp_horizontal` (lines 243-246). -/
def horizontal_cells (W H : Nat) : List (Nat × Nat) :=
  [(H / 2, W / 2 - 1), (H / 2, W / 2 + 2), (H / 2 + 1, W / 2 - 1), (H / 2 + 1, W / 2 + 2)]

/-- Positions (row, column) written by `stamp_vertical` (lines 253-256). -/
def vertical_cells (W H : Nat) : List (Nat × Nat) :=
  [(H / 2 - 1, W / 2), (H / 2 - 1, W / 2 + 1), (H / 2 + 2, W / 2), (H / 2 + 2, W / 2 + 1)]

/-- The buffer `p` with `STATE_FIRING` written at the listed positions. -/
def fire_at {W H : Nat} (p : Grid W H) (cells : List (Nat × Nat)) : Grid W H :=
  fun i j => if (i.val, j.val) ∈ cells then STATE_FIRING else p i j

/-- Every cell of `q` is the cell of `p`, or `Ready`, or `Firing`. -/
def touched {W H : Nat} (p q : Grid W H) : Prop :=
  ∀ i j, q i j = p i j ∨ q i j = STATE_READY ∨ q i j = STATE_FIRING

/-- The step from `s` to `s1` changed nothing but the grid, and the grid only by writing
`Ready` or `Firing` words. -/
def input_only {W H : Nat} (s s1 : MainState W H) : Prop :=
  s1.backbuffer = s.backbuffer ∧ s1.steps = s.steps ∧ s1.draws = s.draws
    ∧ s1.shm_complete_event = s.shm_complete_event ∧ s1.delete_win_atom = s.delete_win_atom
    ∧ touched s.shm_ptr s1.shm_ptr

/-- The invariant of the main loop: the scratch buffer is zero and every cell of the grid
holds one of the three states. -/
def loop_inv {W H : Nat} (s : MainState W H) : Prop :=
  s.backbuffer = zeroed W H ∧ ∀ i j, valid_state (s.shm_ptr i j)

/-! ## Lemmas: memory accesses -/

theorem cell_fin {W H : Nat} (p : Grid W H) (i : Fin H) (j : Fin W) :
    cell p i.val j.val = p i j := by
  simp [cell]

theorem load_nat {W H : Nat} (p : Grid W H) (r c : Nat) (hr : r < H) (hc : c < W) :
    load p (r : Int) (c : Int) = some (cell p r c) := by
  have h : 0 ≤ (r : Int) ∧ (r : Int) < H ∧ 0 ≤ (c : Int) ∧ (c : Int) < W := by omega
  simp only [load, cell, dif_pos h, dif_pos (And.intro hr hc), Int.toNat_ofNat]

theorem store_nat {W H : Nat} (p : Grid W H) (r c : Nat) (hr : r < H) (hc : c < W) (v : Nat) :
    store p (r : Int) (c : Int) v
      = some (fun i j => if i.val = r ∧ j.val = c then v else p i j) := by
  have h : 0 ≤ (r : Int) ∧ (r : Int) < H ∧ 0 ≤ (c : Int) ∧ (c : Int) < W := by omega
  simp only [store, if_pos h, Nat.cast_inj]

theorem tmod_dec (n k : Nat) (hk : k < n) :
    Int.tmod ((k : Int) + n - 1) n = ((wrap_dec n k : Nat) : Int) := by
  have h : (k : Int) + n - 1 = ((k + n - 1 : Nat) : Int) := by omega
  rw [h, wrap_dec, Int.ofNat_tmod]

theorem tmod_inc (n k : Nat) : Int.tmod ((k : Int) + 1) n = ((wrap_inc n k : Nat) : Int) := by
  have h : (k : Int) + 1 = ((k + 1 : Nat) : Int) := by omega
  rw [h, wrap_inc, Int.ofNat_tmod]

theorem wrap_dec_lt (n k : Nat) (hk : k < n) : wrap_dec n k < n := Nat.mod_lt _ (by omega)

theorem wrap_inc_lt (n k : Nat) (hk : k < n) : wrap_inc n k < n := Nat.mod_lt _ (by omega)

/-! ## Lemmas: the pass of `simulation_step` -/

theorem get_adjacent_nat {W H : Nat} (ptr : Grid W H) (y x : Nat) (hy : y < H) (hx : x < W) :
    get_adjacent W H (x : Int) (y : Int) ptr = some (adjacent_cells ptr y x) := by
  have hl := wrap_dec_lt W x hx
  have hr := wrap_inc_lt W x hx
  have hu := wrap_dec_lt H y hy
  have hd := wrap_inc_lt H y hy
  simp only [get_adjacent, tmod_dec W x hx, tmod_dec H y hy, tmod_inc, load_nat, hl, hr, hu, hd, hx, hy,
    adjacent_cells, Option.bind_eq_bind, Option.some_bind, Option.pure_def, bind, pure]

theorem step_cell_eq {W H : Nat} (ptr t : Grid W H) (y x : Nat) (hy : y < H) (hx : x < W) :
    step_cell W H ptr t y x
      = some (fun i j => if i.val = y ∧ j.val = x then next_cell ptr t y x else t i j) := by
  simp only [step_cell, get_adjacent_nat ptr y x hy hx, load_nat ptr y x hy hx,
    Option.bind_eq_bind, Option.some_bind, next_cell]
  by_cases h1 : count_firing (adjacent_cells ptr y x) = 2 ∧ cell ptr y x = STATE_READY
  · simp only [if_pos h1, store_nat t y x hy hx]
  · simp only [if_neg h1]
    by_cases h2 : cell ptr y x = STATE_FIRING
    · simp only [if_pos h2, store_nat t y x hy hx]
    · simp only [if_neg h2, Option.pure_def, Option.some.injEq]
      funext i j
      split
      · next h => rw [← h.1, ← h.2, cell_fin]
      · rfl

theorem next_cell_congr {W H : Nat} (ptr t u : Grid W H) (y x : Nat)
    (h : cell t y x = cell u y x) : next_cell ptr t y x = next_cell ptr u y x := by
  simp only [next_cell, h]

theorem step_row_upto {W H : Nat} (ptr tmp : Grid W H) (y : Nat) (hy : y < H) (n : Nat)
    (hn : n ≤ W) :
    (List.range n).foldlM (fun t x => step_cell W H ptr t y x) tmp
      = some (fun i j => if i.val = y ∧ j.val < n then next_cell ptr tmp y j.val else tmp i j) := by
  induction n with
  | zero => simp
  | succ n ih =>
    rw [List.range_succ, List.foldlM_append, ih (by omega)]
    simp only [Option.bind_eq_bind, Option.some_bind, List.foldlM_cons, List.foldlM_nil,
      step_cell_eq ptr _ y n hy (by omega), Option.pure_def, Option.bind_some, Option.some.injEq]
    funext i j
    by_cases hi : i.val = y
    · by_cases hj : j.val = n
      · have hc : cell (fun (i : Fin H) (j : Fin W) =>
            if i.val = y ∧ j.val < n then next_cell ptr tmp y j.val else tmp i j) y n
            = cell tmp y n := by
          simp [cell]
        simp only [hi, hj, and_self, if_true, Nat.lt_succ_self]
        exact next_cell_congr ptr _ tmp y n hc
      · have : (j.val < n + 1) = (j.val < n) := by apply propext; omega
        simp only [hi, hj, and_false, if_false, true_and, this]
    · simp only [hi, false_and, if_false]

theorem step_row_eq {W H : Nat} (ptr tmp : Grid W H) (y : Nat) (hy : y < H) :
    step_row W H ptr tmp y
      = some (fun i j => if i.val = y then next_cell ptr tmp y j.val else tmp i j) := by
  rw [step_row, step_row_upto ptr tmp y hy W (Nat.le_refl W)]
  simp

theorem step_rows_upto {W H : Nat} (ptr tmp : Grid W H) (n : Nat) (hn : n ≤ H) :
    (List.range n).foldlM (fun t y => step_row W H ptr t y) tmp
      = some (fun i j => if i.val < n then next_cell ptr tmp i.val j.val else tmp i j) := by
  induction n with
  | zero => simp
  | succ n ih =>
    have hlt : n < H := by omega
    rw [List.range_succ, List.foldlM_append, ih (by omega)]
    simp only [Option.bind_eq_bind, Option.some_bind, List.foldlM_cons, List.foldlM_nil,
      step_row_eq ptr _ n hlt, Option.pure_def, Option.bind_some, Option.some.injEq]
    funext i j
    by_cases hi : i.val = n
    · have hc : cell (fun (i : Fin H) (j : Fin W) =>
          if i.val < n then next_cell ptr tmp i.val j.val else tmp i j) n j.val
          = cell tmp n j.val := by
        simp [cell]
      simp only [hi, if_true, Nat.lt_succ_self]
      exact next_cell_congr ptr _ tmp n j.val hc
    · have : (i.val < n + 1) = (i.val < n) := by apply propext; omega
      simp only [hi, if_false, this]

/-- The whole pass in closed form: every cell of the published grid is `next_cell` of the
old grid and the old scratch buffer, and the scratch buffer is cleared. -/
theorem simulation_step_eq {W H : Nat} (ptr tmp : Grid W H) :
    simulation_step W H ptr tmp
      = some (fun i j => next_cell ptr tmp i.val j.val, zeroed W H) := by
  rw [simulation_step, step_rows_upto ptr tmp H (Nat.le_refl H)]
  simp


/-! ## Lemmas: the code's neighbour count against the specification's -/

theorem foldl_count (l : List Nat) (n : Nat) :
    l.foldl (fun count a => if a = STATE_FIRING then count + 1 else count) n
      = n + (l.filter (fun v => decide (v = STATE_FIRING))).length := by
  induction l generalizing n with
  | nil => simp
  | cons a l ih =>
    rw [List.foldl_cons, ih]
    by_cases h : a = STATE_FIRING
    · simp [h]; omega
    · simp [h]

theorem count_firing_eq (l : List Nat) :
    count_firing l = (l.filter (fun v => decide (v = STATE_FIRING))).length := by
  rw [count_firing, foldl_count]; simp

theorem emod_dec (n k : Nat) (hk : k < n) :
    (((k : Int) + -1) % (n : Int)).toNat = wrap_dec n k := by
  have h : ((k : Int) + -1) % (n : Int) = (((k + n - 1 : Nat) : Int)) % (n : Int) := by
    have e : ((k + n - 1 : Nat) : Int) = ((k : Int) + -1) + n := by omega
    rw [e, Int.add_emod_self]
  rw [h, wrap_dec, ← Int.ofNat_emod, Int.toNat_ofNat]

theorem emod_same (n k : Nat) (hk : k < n) : (((k : Int) + 0) % (n : Int)).toNat = k := by
  rw [Int.add_zero, ← Int.ofNat_emod, Int.toNat_ofNat, Nat.mod_eq_of_lt hk]

theorem emod_inc (n k : Nat) : (((k : Int) + 1) % (n : Int)).toNat = wrap_inc n k := by
  have e : (k : Int) + 1 = ((k + 1 : Nat) : Int) := by omega
  rw [e, wrap_inc, ← Int.ofNat_emod, Int.toNat_ofNat]

theorem adjacent_cells_spec {W H : Nat} (g : Grid W H) (y x : Nat) (hy : y < H) (hx : x < W) :
    adjacent_cells g y x = spec_neighbors g (x : Int) (y : Int) := by
  simp only [adjacent_cells, spec_neighbors, spec_offsets, spec_get, List.map_cons, List.map_nil,
    emod_dec W x hx, emod_dec H y hy, emod_same W x hx, emod_same H y hy, emod_inc]

theorem count_spec {W H : Nat} (g : Grid W H) (y x : Nat) (hy : y < H) (hx : x < W) :
    count_firing (adjacent_cells g y x) = spec_firing_count g (x : Int) (y : Int) := by
  rw [count_firing_eq, adjacent_cells_spec g y x hy hx, spec_firing_count]

theorem state_consts :
    STATE_READY ≠ STATE_FIRING ∧ STATE_READY ≠ STATE_REFRACTORY
      ∧ STATE_FIRING ≠ STATE_REFRACTORY := by
  decide

/-- With a zero scratch buffer the word written for a cell is the transition table applied
to the old cell and the specification's neighbour count. -/
theorem next_cell_zeroed {W H : Nat} (g : Grid W H) (i : Fin H) (j : Fin W) :
    next_cell g (zeroed W H) i.val j.val
      = spec_rule (g i j) (spec_firing_count g (j.val : Int) (i.val : Int)) := by
  have hz : cell (zeroed W H) i.val j.val = 0 := by simp [cell, zeroed]
  rw [next_cell, count_spec g i.val j.val i.isLt j.isLt, cell_fin, hz, spec_rule]
  obtain ⟨h1, -, -⟩ := state_consts
  by_cases hr : g i j = STATE_READY
  · by_cases hc : spec_firing_count g (j.val : Int) (i.val : Int) = 2
    · simp [hr, hc]
    · simp [hr, hc, h1]; rfl
  · by_cases hf : g i j = STATE_FIRING
    · have hne : ¬ (STATE_FIRING = STATE_READY) := fun e => h1 e.symm
      simp [hf, hne]
    · simp [hr, hf]; rfl

theorem spec_rule_table (s c : Nat) :
    (spec_rule s c = STATE_FIRING ↔ s = STATE_READY ∧ c = 2)
      ∧ (spec_rule s c = STATE_REFRACTORY ↔ s = STATE_FIRING)
      ∧ (¬ (s = STATE_READY ∧ c = 2) → s ≠ STATE_FIRING → spec_rule s c = STATE_READY) := by
  obtain ⟨h1, h2, h3⟩ := state_consts
  have h1s : ¬ (STATE_FIRING = STATE_READY) := fun e => h1 e.symm
  rw [spec_rule]
  by_cases hr : s = STATE_READY
  · by_cases hc : c = 2
    · subst hr; simp [hc, h1, h3]
    · subst hr; simp [hc, h1, h2]
  · by_cases hf : s = STATE_FIRING
    · subst hf; simp [h1s, h3.symm]
    · simp [hr, hf, h1, h2]

/-! ## C1 -/

/-- C1. `simulation_step` on the program's 256x256 grid, called with the scratch buffer all
zero, returns, and the published grid is the synchronous Brian's Brain table applied to the
OLD grid: a cell is Firing iff the old cell was Ready with exactly 2 of its 8 toroidal Moore
neighbours Firing in the old grid, Refractory iff the old cell was Firing, and Ready in
every other case; each new cell is `spec_rule` of the old cell and the old neighbour count,
so it depends on no new value. This holds for every grid content, in particular for grids
whose cells are all Ready, Firing or Refractory. -/
theorem simulation_step_table (g : Grid WIN_W WIN_H) :
    ∃ g1 : Grid WIN_W WIN_H,
      simulation_step WIN_W WIN_H g (zeroed WIN_W WIN_H) = some (g1, zeroed WIN_W WIN_H)
      ∧ ∀ (i : Fin WIN_H) (j : Fin WIN_W),
          g1 i j = spec_rule (g i j) (spec_firing_count g (j.val : Int) (i.val : Int))
          ∧ (g1 i j = STATE_FIRING ↔
              g i j = STATE_READY ∧ spec_firing_count g (j.val : Int) (i.val : Int) = 2)
          ∧ (g1 i j = STATE_REFRACTORY ↔ g i j = STATE_FIRING)
          ∧ (¬ (g i j = STATE_READY ∧ spec_firing_count g (j.val : Int) (i.val : Int) = 2)
              → g i j ≠ STATE_FIRING → g1 i j = STATE_READY) := by
  refine ⟨fun i j => next_cell g (zeroed WIN_W WIN_H) i.val j.val, simulation_step_eq g _, ?_⟩
  intro i j
  have h := next_cell_zeroed g i j
  have t := spec_rule_table (g i j) (spec_firing_count g (j.val : Int) (i.val : Int))
  rw [← h] at t
  exact ⟨h, t⟩


/-! ## C2 -/

/-- C2. `get_adjacent` on the program's grid at any in-range `(x, y)`: all eight reads are
inside the grid (the call returns `some`), and the values returned are the cells at
`((x+dx) mod WIN_W, (y+dy) mod WIN_H)` for the eight offsets `(dx,dy)` of `{-1,0,1}²` other
than `(0,0)`, one entry per offset, at eight pairwise distinct positions. At `(0,0)` the
neighbours are the cells of rows `H-1`, `0`, `1` and columns `W-1`, `0`, `1`, among them
`(W-1,H-1)`, `(W-1,0)` and `(0,H-1)`. -/
theorem get_adjacent_wraps (g : Grid WIN_W WIN_H) (x : Fin WIN_W) (y : Fin WIN_H) :
    get_adjacent WIN_W WIN_H (x.val : Int) (y.val : Int) g
        = some (spec_offsets.map (fun d => spec_get g ((x.val : Int) + d.1) ((y.val : Int) + d.2)))
      ∧ (∀ d : Int × Int, d ∈ spec_offsets ↔
          (-1 ≤ d.1 ∧ d.1 ≤ 1 ∧ -1 ≤ d.2 ∧ d.2 ≤ 1 ∧ d ≠ (0, 0)))
      ∧ spec_offsets.Nodup
      ∧ (spec_offsets.map (fun d =>
            (((x.val : Int) + d.1) % (WIN_W : Int), ((y.val : Int) + d.2) % (WIN_H : Int)))).Nodup
      ∧ (∀ d ∈ spec_offsets,
            0 ≤ ((x.val : Int) + d.1) % (WIN_W : Int)
            ∧ ((x.val : Int) + d.1) % (WIN_W : Int) < WIN_W
            ∧ 0 ≤ ((y.val : Int) + d.2) % (WIN_H : Int)
            ∧ ((y.val : Int) + d.2) % (WIN_H : Int) < WIN_H)
      ∧ get_adjacent WIN_W WIN_H 0 0 g
          = some [cell g (WIN_H - 1) (WIN_W - 1), cell g (WIN_H - 1) 0, cell g (WIN_H - 1) 1,
                  cell g 0 (WIN_W - 1), cell g 0 1,
                  cell g 1 (WIN_W - 1), cell g 1 0, cell g 1 1] := by
  have hx : x.val < 256 := x.isLt
  have hy : y.val < 256 := y.isLt
  refine ⟨?_, ?_, ?_, ?_, ?_, ?_⟩
  · rw [get_adjacent_nat g y.val x.val y.isLt x.isLt, adjacent_cells_spec g y.val x.val y.isLt x.isLt,
      spec_neighbors]
  · rintro ⟨a, b⟩
    simp only [spec_offsets, List.mem_cons, Prod.mk.injEq, List.mem_singleton, ne_eq,
      List.mem_nil_iff, or_false]
    omega
  · decide
  · simp only [spec_offsets, List.map_cons, List.map_nil, List.nodup_cons, List.mem_cons,
      Prod.mk.injEq, List.mem_singleton, List.not_mem_nil, not_false_eq_true, List.nodup_nil,
      and_true, not_or, WIN_W, WIN_H, Nat.cast_ofNat]
    omega
  · intro d _
    simp only [WIN_W, WIN_H, Nat.cast_ofNat]
    omega
  · have h := get_adjacent_nat g 0 0 (by decide) (by decide)
    simp only [Nat.cast_zero] at h
    rw [h]
    rfl


/-! ## Lemmas: grids without activity, lone cells -/

theorem cell_ne_firing {W H : Nat} (g : Grid W H) (hg : ∀ i j, g i j ≠ STATE_FIRING) (r c : Nat) :
    cell g r c ≠ STATE_FIRING := by
  unfold cell
  split
  · exact hg _ _
  · decide

theorem count_no_firing {W H : Nat} (g : Grid W H) (hg : ∀ i j, g i j ≠ STATE_FIRING)
    (y x : Nat) : count_firing (adjacent_cells g y x) = 0 := by
  rw [count_firing_eq, List.length_eq_zero, List.filter_eq_nil_iff]
  intro a ha
  simp only [adjacent_cells, List.mem_cons, List.mem_singleton, List.not_mem_nil, or_false] at ha
  simp only [decide_eq_true_eq]
  rcases ha with h | h | h | h | h | h | h | h <;> rw [h] <;> exact cell_ne_firing g hg _ _

/-- Without a Firing cell in the grid, the pass publishes the scratch buffer as it was. -/
theorem next_cell_no_firing {W H : Nat} (g t : Grid W H) (hg : ∀ i j, g i j ≠ STATE_FIRING)
    (y x : Nat) : next_cell g t y x = cell t y x := by
  rw [next_cell, count_no_firing g hg, if_neg (by simp), if_neg (cell_ne_firing g hg y x)]

theorem simulation_step_idle {W H : Nat} (g t : Grid W H)
    (hg : ∀ i j, g i j ≠ STATE_FIRING) :
    simulation_step W H g t = some (t, zeroed W H) := by
  rw [simulation_step_eq]
  congr 2
  funext i j
  rw [next_cell_no_firing g _ hg, cell_fin]

theorem simulation_step_no_firing {W H : Nat} (g : Grid W H)
    (hg : ∀ i j, g i j ≠ STATE_FIRING) :
    simulation_step W H g (zeroed W H) = some (zeroed W H, zeroed W H) :=
  simulation_step_idle g (zeroed W H) hg

theorem run_steps_zeroed (W H n : Nat) :
    run_steps W H n (zeroed W H, zeroed W H) = some (zeroed W H, zeroed W H) := by
  induction n with
  | zero => rfl
  | succ n ih =>
    have hz : ∀ (i : Fin H) (j : Fin W), zeroed W H i j ≠ STATE_FIRING := by
      intro i j; simp only [zeroed]; decide
    simp only [run_steps, simulation_step_no_firing (zeroed W H) hz, Option.some_bind, ih]

theorem wrap_dec_cases (n k : Nat) (hk : k < n) :
    (k = 0 ∧ wrap_dec n k = n - 1) ∨ (0 < k ∧ wrap_dec n k = k - 1) := by
  unfold wrap_dec
  rcases Nat.eq_zero_or_pos k with h | h
  · left
    subst h
    exact ⟨rfl, by rw [Nat.zero_add]; exact Nat.mod_eq_of_lt (by omega)⟩
  · right
    refine ⟨h, ?_⟩
    have e : k + n - 1 = (k - 1) + n := by omega
    rw [e, Nat.add_mod_right]
    exact Nat.mod_eq_of_lt (by omega)

theorem wrap_inc_cases (n k : Nat) (hk : k < n) :
    (k + 1 = n ∧ wrap_inc n k = 0) ∨ (k + 1 < n ∧ wrap_inc n k = k + 1) := by
  unfold wrap_inc
  by_cases h : k + 1 = n
  · left
    exact ⟨h, by rw [h]; exact Nat.mod_self n⟩
  · right
    exact ⟨by omega, Nat.mod_eq_of_lt (by omega)⟩

theorem wrap_distinct (n k : Nat) (hn : 3 ≤ n) (hk : k < n) :
    wrap_dec n k ≠ k ∧ wrap_inc n k ≠ k ∧ wrap_dec n k ≠ wrap_inc n k := by
  have h1 := wrap_dec_cases n k hk
  have h2 := wrap_inc_cases n k hk
  omega

theorem cell_lone {W H : Nat} (cy cx v r c : Nat) (hr : r < H) (hc : c < W) :
    cell (lone W H cy cx v) r c = if r = cy ∧ c = cx then v else 0 := by
  simp [cell, lone, hr, hc, STATE_READY]

theorem firing_ite (P : Prop) [Decidable P] :
    ((if P then STATE_FIRING else 0) = STATE_FIRING) = P := by
  apply propext
  by_cases h : P
  · simp [h]
  · simp only [h, if_false, iff_false]; decide

theorem count_lone_le (u y d l x r cy cx : Nat) (h1 : u ≠ y) (h2 : d ≠ y) (h3 : u ≠ d)
    (h4 : l ≠ x) (h5 : r ≠ x) (h6 : l ≠ r) (hne : ¬ (y = cy ∧ x = cx)) :
    count_firing
      [if u = cy ∧ l = cx then STATE_FIRING else 0, if u = cy ∧ x = cx then STATE_FIRING else 0,
       if u = cy ∧ r = cx then STATE_FIRING else 0, if y = cy ∧ l = cx then STATE_FIRING else 0,
       if y = cy ∧ r = cx then STATE_FIRING else 0, if d = cy ∧ l = cx then STATE_FIRING else 0,
       if d = cy ∧ x = cx then STATE_FIRING else 0, if d = cy ∧ r = cx then STATE_FIRING else 0]
      ≤ 1 := by
  rw [count_firing_eq]
  have hF : ¬ ((0 : Nat) = STATE_FIRING) := by decide
  by_cases a1 : u = cy <;> by_cases a2 : y = cy <;> by_cases a3 : d = cy <;>
    by_cases b1 : l = cx <;> by_cases b2 : x = cx <;> by_cases b3 : r = cx <;>
    first
    | omega
    | simp [a1, a2, a3, b1, b2, b3, hF, List.filter]


theorem lone_ne_firing (W H cy cx : Nat) (i : Fin H) (j : Fin W) :
    lone W H cy cx STATE_REFRACTORY i j ≠ STATE_FIRING := by
  unfold lone
  split <;> decide

/-- One pass over a grid with a single Firing cell, on any torus of at least 3x3 cells. -/
theorem lone_firing_step (W H : Nat) (hW : 3 ≤ W) (hH : 3 ≤ H) (cy cx : Nat) :
    simulation_step W H (lone W H cy cx STATE_FIRING) (zeroed W H)
      = some (lone W H cy cx STATE_REFRACTORY, zeroed W H) := by
  rw [simulation_step_eq]
  congr 2
  funext i j
  have hi := i.isLt
  have hj := j.isLt
  have hu := wrap_dec_lt H i.val hi
  have hd := wrap_inc_lt H i.val hi
  have hl := wrap_dec_lt W j.val hj
  have hr := wrap_inc_lt W j.val hj
  obtain ⟨v1, v2, v3⟩ := wrap_distinct H i.val hH hi
  obtain ⟨w1, w2, w3⟩ := wrap_distinct W j.val hW hj
  have hz : cell (zeroed W H) i.val j.val = 0 := by simp [cell, zeroed]
  simp only [next_cell, adjacent_cells, cell_lone, hi, hj, hu, hd, hl, hr, hz, lone]
  by_cases hc : i.val = cy ∧ j.val = cx
  · have hne : ¬ (STATE_FIRING = STATE_READY) := by decide
    simp only [hc, and_self, if_true, hne, and_false, if_false]
  · have hle := count_lone_le (wrap_dec H i.val) i.val (wrap_inc H i.val) (wrap_dec W j.val)
      j.val (wrap_inc W j.val) cy cx v1 v2 v3 w1 w2 w3 hc
    have hne : ¬ ((0 : Nat) = STATE_FIRING) := by decide
    rw [if_neg (fun h => by omega)]
    simp only [hc, if_false, hne]
    rfl

/-! ## C5 -/

/-- C5. Rule fidelity for a lone Firing cell. For every cell position `(cx, cy)` of the
program's 256x256 torus, from the grid that is Ready everywhere except Firing there (scratch
buffer zero), one `simulation_step` publishes the grid that is Refractory at that cell and
Ready elsewhere, and a second `simulation_step` publishes the all-Ready grid. The same
holds in the specification's scenario, cell `(2,2)` of a 5x5 torus. -/
theorem lone_firing_two_steps (cy : Fin WIN_H) (cx : Fin WIN_W) :
    (∃ g1 g2 : Grid WIN_W WIN_H,
      simulation_step WIN_W WIN_H (lone WIN_W WIN_H cy.val cx.val STATE_FIRING)
          (zeroed WIN_W WIN_H) = some (g1, zeroed WIN_W WIN_H)
      ∧ (∀ i j, g1 i j = if i = cy ∧ j = cx then STATE_REFRACTORY else STATE_READY)
      ∧ simulation_step WIN_W WIN_H g1 (zeroed WIN_W WIN_H) = some (g2, zeroed WIN_W WIN_H)
      ∧ ∀ i j, g2 i j = STATE_READY)
    ∧ (∃ g1 g2 : Grid 5 5,
      simulation_step 5 5 (lone 5 5 2 2 STATE_FIRING) (zeroed 5 5) = some (g1, zeroed 5 5)
      ∧ (∀ i j, g1 i j = if i = 2 ∧ j = 2 then STATE_REFRACTORY else STATE_READY)
      ∧ simulation_step 5 5 g1 (zeroed 5 5) = some (g2, zeroed 5 5)
      ∧ ∀ i j, g2 i j = STATE_READY) := by
  constructor
  · refine ⟨lone WIN_W WIN_H cy.val cx.val STATE_REFRACTORY, zeroed WIN_W WIN_H,
      lone_firing_step WIN_W WIN_H (by decide) (by decide) cy.val cx.val,
      ?_, simulation_step_no_firing _ (lone_ne_firing _ _ _ _), fun _ _ => rfl⟩
    intro i j
    simp only [lone, Fin.ext_iff]
  · refine ⟨lone 5 5 2 2 STATE_REFRACTORY, zeroed 5 5,
      lone_firing_step 5 5 (by decide) (by decide) 2 2,
      ?_, simulation_step_no_firing _ (lone_ne_firing _ _ _ _), fun _ _ => rfl⟩
    intro i j
    simp only [lone, Fin.ext_iff]
    rfl

/-! ## C6 -/

theorem key_grid_reset {W H : Nat} (g : Grid W H) : key_grid W H XK_r g = some (zeroed W H) := by
  have h1 : ¬ (XK_r = XK_s) := by decide
  have h2 : ¬ (XK_r = XK_a) := by decide
  have h3 : ¬ (XK_r = XK_d) := by decide
  simp only [key_grid, if_true, if_neg h1, if_neg h2, if_neg h3, Option.some_bind]

/-- C6. Reset idempotence. For every grid the reset command (key `r`) makes every cell
Ready, and for every `n`, `n` calls of `simulation_step` after it (scratch buffer zero, as
the program keeps it) return and leave every cell Ready: the all-Ready grid is a fixed
point of `simulation_step`. -/
theorem reset_then_steps (g : Grid WIN_W WIN_H) (n : Nat) :
    ∃ g0 gn : Grid WIN_W WIN_H,
      key_grid WIN_W WIN_H XK_r g = some g0
      ∧ (∀ i j, g0 i j = STATE_READY)
      ∧ run_steps WIN_W WIN_H n (g0, zeroed WIN_W WIN_H) = some (gn, zeroed WIN_W WIN_H)
      ∧ (∀ i j, gn i j = STATE_READY)
      ∧ simulation_step WIN_W WIN_H gn (zeroed WIN_W WIN_H) = some (gn, zeroed WIN_W WIN_H) := by
  refine ⟨zeroed WIN_W WIN_H, zeroed WIN_W WIN_H, key_grid_reset g, fun _ _ => rfl,
    run_steps_zeroed WIN_W WIN_H n, fun _ _ => rfl, ?_⟩
  apply simulation_step_no_firing
  intro i j
  simp only [zeroed]
  decide

/-! ## C9 -/

/-- C9, as stated, fails: on the all-Ready grid the pass writes no cell, so the published
grid is whatever the scratch buffer held; with a zero scratch buffer it is all zero, with a
scratch buffer of ones it is all ones. -/
theorem scratch_content_is_published :
    simulation_step WIN_W WIN_H (zeroed WIN_W WIN_H) (zeroed WIN_W WIN_H)
        = some (zeroed WIN_W WIN_H, zeroed WIN_W WIN_H)
      ∧ simulation_step WIN_W WIN_H (zeroed WIN_W WIN_H) (fun _ _ => 1)
        = some (fun _ _ => 1, zeroed WIN_W WIN_H)
      ∧ (simulation_step WIN_W WIN_H (zeroed WIN_W WIN_H) (zeroed WIN_W WIN_H)).map Prod.fst
        ≠ (simulation_step WIN_W WIN_H (zeroed WIN_W WIN_H) (fun _ _ => 1)).map Prod.fst := by
  have hz : ∀ (i : Fin WIN_H) (j : Fin WIN_W), zeroed WIN_W WIN_H i j ≠ STATE_FIRING := by
    intro i j; simp only [zeroed]; decide
  have e1 := simulation_step_no_firing (zeroed WIN_W WIN_H) hz
  have e2 : simulation_step WIN_W WIN_H (zeroed WIN_W WIN_H) (fun _ _ => 1)
      = some (fun _ _ => 1, zeroed WIN_W WIN_H) :=
    simulation_step_idle (zeroed WIN_W WIN_H) (fun _ _ => 1) hz
  refine ⟨e1, e2, ?_⟩
  rw [e1, e2]
  simp only [Option.map_some', ne_eq, Option.some.injEq]
  intro h
  have hi : 0 < WIN_H := by decide
  have hj : 0 < WIN_W := by decide
  have h0 := congrFun (congrFun h ⟨0, hi⟩) ⟨0, hj⟩
  simp only [zeroed] at h0
  exact Nat.zero_ne_one h0

/-- C9, amended. Two scratch contents that agree on every cell the pass does not write (a
cell that is neither Firing nor Ready with exactly two Firing neighbours) make
`simulation_step` publish the same grid; at such a cell the published word is the word the
scratch buffer held, and the scratch buffer is zero on return. -/
theorem simulation_step_scratch_agree (g s1 s2 : Grid WIN_W WIN_H)
    (h : ∀ i j, g i j ≠ STATE_FIRING →
      ¬ (g i j = STATE_READY ∧ spec_firing_count g (j.val : Int) (i.val : Int) = 2) →
      s1 i j = s2 i j) :
    ∃ g1 : Grid WIN_W WIN_H,
      simulation_step WIN_W WIN_H g s1 = some (g1, zeroed WIN_W WIN_H)
      ∧ simulation_step WIN_W WIN_H g s2 = some (g1, zeroed WIN_W WIN_H)
      ∧ ∀ i j, g i j ≠ STATE_FIRING →
          ¬ (g i j = STATE_READY ∧ spec_firing_count g (j.val : Int) (i.val : Int) = 2) →
          g1 i j = s1 i j := by
  refine ⟨fun i j => next_cell g s1 i.val j.val, simulation_step_eq g s1, ?_, ?_⟩
  · rw [simulation_step_eq, Option.some.injEq, Prod.mk.injEq]
    refine ⟨?_, rfl⟩
    funext i j
    simp only [next_cell, count_spec g i.val j.val i.isLt j.isLt, cell_fin]
    by_cases h1 : spec_firing_count g (j.val : Int) (i.val : Int) = 2 ∧ g i j = STATE_READY
    · simp only [if_pos h1]
    · by_cases h2 : g i j = STATE_FIRING
      · simp only [if_neg h1, if_pos h2]
      · simp only [if_neg h1, if_neg h2]
        exact (h i j h2 (fun hh => h1 ⟨hh.2, hh.1⟩)).symm
  · intro i j h2 h1
    show next_cell g s1 i.val j.val = s1 i j
    simp only [next_cell, count_spec g i.val j.val i.isLt j.isLt, cell_fin]
    rw [if_neg (fun hh => h1 ⟨hh.2, hh.1⟩), if_neg h2]

/-- C9, amended, at a concrete input: the grid with a single Firing cell at `(0,0)`, a
zero scratch buffer, and a scratch buffer that differs from it only at `(0,0)`, the one
cell the pass writes. -/
theorem simulation_step_scratch_agree_witness :
    (∀ i j, lone WIN_W WIN_H 0 0 STATE_FIRING i j ≠ STATE_FIRING →
      ¬ (lone WIN_W WIN_H 0 0 STATE_FIRING i j = STATE_READY
        ∧ spec_firing_count (lone WIN_W WIN_H 0 0 STATE_FIRING) (j.val : Int) (i.val : Int) = 2) →
      zeroed WIN_W WIN_H i j = lone WIN_W WIN_H 0 0 1 i j)
    ∧ ∃ g1 : Grid WIN_W WIN_H,
      simulation_step WIN_W WIN_H (lone WIN_W WIN_H 0 0 STATE_FIRING) (zeroed WIN_W WIN_H)
        = some (g1, zeroed WIN_W WIN_H)
      ∧ simulation_step WIN_W WIN_H (lone WIN_W WIN_H 0 0 STATE_FIRING) (lone WIN_W WIN_H 0 0 1)
        = some (g1, zeroed WIN_W WIN_H)
      ∧ ∀ i j, lone WIN_W WIN_H 0 0 STATE_FIRING i j ≠ STATE_FIRING →
          ¬ (lone WIN_W WIN_H 0 0 STATE_FIRING i j = STATE_READY
            ∧ spec_firing_count (lone WIN_W WIN_H 0 0 STATE_FIRING) (j.val : Int) (i.val : Int)
              = 2) →
          g1 i j = zeroed WIN_W WIN_H i j := by
  have hyp : ∀ (i : Fin WIN_H) (j : Fin WIN_W),
      lone WIN_W WIN_H 0 0 STATE_FIRING i j ≠ STATE_FIRING →
      ¬ (lone WIN_W WIN_H 0 0 STATE_FIRING i j = STATE_READY
        ∧ spec_firing_count (lone WIN_W WIN_H 0 0 STATE_FIRING) (j.val : Int) (i.val : Int) = 2) →
      zeroed WIN_W WIN_H i j = lone WIN_W WIN_H 0 0 1 i j := by
    intro i j hne _
    unfold lone at hne ⊢
    by_cases h : i.val = 0 ∧ j.val = 0
    · rw [if_pos h] at hne
      exact absurd rfl hne
    · rw [if_neg h]
      rfl
  exact ⟨hyp, simulation_step_scratch_agree (lone WIN_W WIN_H 0 0 STATE_FIRING)
    (zeroed WIN_W WIN_H) (lone WIN_W WIN_H 0 0 1) hyp⟩

/-! ## Lemmas: the input handlers -/

theorem ite_chain (A B C D : Prop) [Decidable A] [Decidable B] [Decidable C] [Decidable D]
    (v x : Nat) :
    (if D then v else if C then v else if B then v else if A then v else x)
      = if A ∨ B ∨ C ∨ D then v else x := by
  by_cases a : A <;> by_cases b : B <;> by_cases c : C <;> by_cases d : D <;> simp [a, b, c, d]

theorem stamp_block_eq {W H : Nat} (hW : 5 ≤ W) (hH : 5 ≤ H) (g : Grid W H) :
    stamp_block W H g = some (fire_at g (block_cells W H)) := by
  have r0 : (H : Int) / 2 + 0 = ((H / 2 : Nat) : Int) := by omega
  have r1 : (H : Int) / 2 + 1 = ((H / 2 + 1 : Nat) : Int) := by omega
  have c0 : (W : Int) / 2 + 0 = ((W / 2 : Nat) : Int) := by omega
  have c1 : (W : Int) / 2 + 1 = ((W / 2 + 1 : Nat) : Int) := by omega
  have hr0 : H / 2 < H := by omega
  have hr1 : H / 2 + 1 < H := by omega
  have hc0 : W / 2 < W := by omega
  have hc1 : W / 2 + 1 < W := by omega
  simp only [stamp_block, r0, r1, c0, c1, store_nat, hr0, hr1, hc0, hc1, Option.bind_eq_bind,
    Option.some_bind, Option.some.injEq]
  funext i j
  simp only [fire_at, block_cells, List.mem_cons, Prod.mk.injEq, List.mem_singleton,
    List.not_mem_nil, or_false]
  exact ite_chain _ _ _ _ _ _

theorem stamp_horizontal_eq {W H : Nat} (hW : 5 ≤ W) (hH : 5 ≤ H) (g : Grid W H) :
    stamp_horizontal W H g = some (fire_at g (horizontal_cells W H)) := by
  have r0 : (H : Int) / 2 + 0 = ((H / 2 : Nat) : Int) := by omega
  have r1 : (H : Int) / 2 + 1 = ((H / 2 + 1 : Nat) : Int) := by omega
  have c0 : (W : Int) / 2 - 1 = ((W / 2 - 1 : Nat) : Int) := by omega
  have c1 : (W : Int) / 2 + 2 = ((W / 2 + 2 : Nat) : Int) := by omega
  have hr0 : H / 2 < H := by omega
  have hr1 : H / 2 + 1 < H := by omega
  have hc0 : W / 2 - 1 < W := by omega
  have hc1 : W / 2 + 2 < W := by omega
  simp only [stamp_horizontal, r0, r1, c0, c1, store_nat, hr0, hr1, hc0, hc1,
    Option.bind_eq_bind, Option.some_bind, Option.some.injEq]
  funext i j
  simp only [fire_at, horizontal_cells, List.mem_cons, Prod.mk.injEq, List.mem_singleton,
    List.not_mem_nil, or_false]
  exact ite_chain _ _ _ _ _ _

theorem stamp_vertical_eq {W H : Nat} (hW : 5 ≤ W) (hH : 5 ≤ H) (g : Grid W H) :
    stamp_vertical W H g = some (fire_at g (vertical_cells W H)) := by
  have r0 : (H : Int) / 2 - 1 = ((H / 2 - 1 : Nat) : Int) := by omega
  have r1 : (H : Int) / 2 + 2 = ((H / 2 + 2 : Nat) : Int) := by omega
  have c0 : (W : Int) / 2 + 0 = ((W / 2 : Nat) : Int) := by omega
  have c1 : (W : Int) / 2 + 1 = ((W / 2 + 1 : Nat) : Int) := by omega
  have hr0 : H / 2 - 1 < H := by omega
  have hr1 : H / 2 + 2 < H := by omega
  have hc0 : W / 2 < W := by omega
  have hc1 : W / 2 + 1 < W := by omega
  simp only [stamp_vertical, r0, r1, c0, c1, store_nat, hr0, hr1, hc0, hc1,
    Option.bind_eq_bind, Option.some_bind, Option.some.injEq]
  funext i j
  simp only [fire_at, vertical_cells, List.mem_cons, Prod.mk.injEq, List.mem_singleton,
    List.not_mem_nil, or_false]
  exact ite_chain _ _ _ _ _ _

theorem key_grid_s {W H : Nat} (g : Grid W H) : key_grid W H XK_s g = stamp_block W H g := by
  have h0 : ¬ (XK_s = XK_r) := by decide
  have h2 : ¬ (XK_s = XK_a) := by decide
  have h3 : ¬ (XK_s = XK_d) := by decide
  simp only [key_grid, if_true, if_neg h0, if_neg h2, if_neg h3]
  cases stamp_block W H g <;> rfl

theorem key_grid_a {W H : Nat} (g : Grid W H) :
    key_grid W H XK_a g = stamp_horizontal W H g := by
  have h0 : ¬ (XK_a = XK_r) := by decide
  have h1 : ¬ (XK_a = XK_s) := by decide
  have h3 : ¬ (XK_a = XK_d) := by decide
  simp only [key_grid, if_true, if_neg h0, if_neg h1, if_neg h3, Option.some_bind]
  cases stamp_horizontal W H g <;> rfl

theorem key_grid_d {W H : Nat} (g : Grid W H) : key_grid W H XK_d g = stamp_vertical W H g := by
  have h0 : ¬ (XK_d = XK_r) := by decide
  have h1 : ¬ (XK_d = XK_s) := by decide
  have h2 : ¬ (XK_d = XK_a) := by decide
  simp only [key_grid, if_true, if_neg h0, if_neg h1, if_neg h2, Option.some_bind]

theorem motion_notify_eq {W H : Nat} (g : Grid W H) (px py : Int) :
    motion_notify W H g px py
      = some (if 0 ≤ px ∧ px < W ∧ 0 ≤ py ∧ py < H then
          (fun i j => if (i.val : Int) = py ∧ (j.val : Int) = px then STATE_FIRING else g i j)
        else g) := by
  unfold motion_notify
  by_cases h : 0 ≤ px ∧ px < W ∧ 0 ≤ py ∧ py < H
  · have h1 : px ≥ 0 ∧ px < W ∧ py ≥ 0 ∧ py < H := h
    have h2 : 0 ≤ py ∧ py < H ∧ 0 ≤ px ∧ px < W := ⟨h.2.2.1, h.2.2.2, h.1, h.2.1⟩
    rw [if_pos h1, if_pos h, store, if_pos h2]
  · have h1 : ¬ (px ≥ 0 ∧ px < W ∧ py ≥ 0 ∧ py < H) := h
    rw [if_neg h1, if_neg h]

theorem touched_refl {W H : Nat} (p : Grid W H) : touched p p := fun _ _ => Or.inl rfl

theorem touched_trans {W H : Nat} {p q r : Grid W H} (h1 : touched p q) (h2 : touched q r) :
    touched p r := by
  intro i j
  rcases h2 i j with h | h | h
  · rw [h]; exact h1 i j
  · exact Or.inr (Or.inl h)
  · exact Or.inr (Or.inr h)

theorem touched_ite {W H : Nat} (p : Grid W H) (P : Fin H → Fin W → Prop)
    [∀ i j, Decidable (P i j)] :
    touched p (fun i j => if P i j then STATE_FIRING else p i j) := by
  intro i j
  by_cases h : P i j
  · exact Or.inr (Or.inr (if_pos h))
  · exact Or.inl (if_neg h)

theorem touched_fire_at {W H : Nat} (p : Grid W H) (cells : List (Nat × Nat)) :
    touched p (fire_at p cells) :=
  touched_ite p _

theorem touched_zeroed {W H : Nat} (p : Grid W H) : touched p (zeroed W H) :=
  fun _ _ => Or.inr (Or.inl rfl)

theorem key_grid_touched {W H : Nat} (hW : 5 ≤ W) (hH : 5 ≤ H) (sym : Nat) (g : Grid W H) :
    ∃ q, key_grid W H sym g = some q ∧ touched g q := by
  unfold key_grid
  have t0 : touched g (if sym = XK_r then zeroed W H else g) := by
    split
    · exact touched_zeroed g
    · exact touched_refl g
  generalize (if sym = XK_r then zeroed W H else g) = p0 at t0
  have e1 : ∃ p1, (if sym = XK_s then stamp_block W H p0 else some p0) = some p1
      ∧ touched g p1 := by
    split
    · exact ⟨_, stamp_block_eq hW hH p0, touched_trans t0 (touched_fire_at p0 _)⟩
    · exact ⟨p0, rfl, t0⟩
  obtain ⟨p1, h1, t1⟩ := e1
  have e2 : ∃ p2, (if sym = XK_a then stamp_horizontal W H p1 else some p1) = some p2
      ∧ touched g p2 := by
    split
    · exact ⟨_, stamp_horizontal_eq hW hH p1, touched_trans t1 (touched_fire_at p1 _)⟩
    · exact ⟨p1, rfl, t1⟩
  obtain ⟨p2, h2, t2⟩ := e2
  have e3 : ∃ p3, (if sym = XK_d then stamp_vertical W H p2 else some p2) = some p3
      ∧ touched g p3 := by
    split
    · exact ⟨_, stamp_vertical_eq hW hH p2, touched_trans t2 (touched_fire_at p2 _)⟩
    · exact ⟨p2, rfl, t2⟩
  obtain ⟨p3, h3, t3⟩ := e3
  exact ⟨p3, by simp only [h1, h2, h3, Option.some_bind], t3⟩

theorem motion_touched {W H : Nat} (g : Grid W H) (px py : Int) :
    ∃ q, motion_notify W H g px py = some q ∧ touched g q := by
  refine ⟨_, motion_notify_eq g px py, ?_⟩
  split
  · exact touched_ite g _
  · exact touched_refl g

/-! ## Lemmas: the event loop -/

theorem input_only_refl {W H : Nat} (s : MainState W H) : input_only s s :=
  ⟨rfl, rfl, rfl, rfl, rfl, touched_refl _⟩

theorem input_only_trans {W H : Nat} {s t u : MainState W H} (h1 : input_only s t)
    (h2 : input_only t u) : input_only s u :=
  ⟨h2.1.trans h1.1, h2.2.1.trans h1.2.1, h2.2.2.1.trans h1.2.2.1,
    h2.2.2.2.1.trans h1.2.2.2.1, h2.2.2.2.2.1.trans h1.2.2.2.2.1,
    touched_trans h1.2.2.2.2.2 h2.2.2.2.2.2⟩

theorem key_press_spec {W H : Nat} (hW : 5 ≤ W) (hH : 5 ≤ H) (s : MainState W H) (sym : Nat) :
    ∃ s1, key_press s sym = some s1 ∧ input_only s s1 ∧ s1.redraw = s.redraw := by
  unfold key_press
  split
  · exact ⟨_, rfl, ⟨rfl, rfl, rfl, rfl, rfl, touched_refl _⟩, rfl⟩
  · obtain ⟨q, hq, tq⟩ := key_grid_touched hW hH sym s.shm_ptr
    exact ⟨{ s with shm_ptr := q }, by rw [hq]; rfl, ⟨rfl, rfl, rfl, rfl, rfl, tq⟩, rfl⟩

theorem on_key_press_spec {W H : Nat} (hW : 5 ≤ W) (hH : 5 ≤ H) (s : MainState W H)
    (e : Event) :
    ∃ s1, on_key_press s e = some s1 ∧ input_only s s1 ∧ s1.redraw = s.redraw := by
  unfold on_key_press
  split
  · exact key_press_spec hW hH s e.keysym
  · exact ⟨s, rfl, input_only_refl s, rfl⟩

theorem on_motion_notify_spec {W H : Nat} (s : MainState W H) (e : Event) :
    ∃ s1, on_motion_notify s e = some s1 ∧ input_only s s1 ∧ s1.redraw = s.redraw := by
  unfold on_motion_notify
  split
  · obtain ⟨q, hq, tq⟩ := motion_touched s.shm_ptr e.event_x e.event_y
    exact ⟨{ s with shm_ptr := q }, by rw [hq]; rfl, ⟨rfl, rfl, rfl, rfl, rfl, tq⟩, rfl⟩
  · exact ⟨s, rfl, input_only_refl s, rfl⟩

theorem on_shm_complete_spec {W H : Nat} (s : MainState W H) (e : Event) :
    input_only s (on_shm_complete s e)
      ∧ (event_code e ≠ s.shm_complete_event → (on_shm_complete s e).redraw = s.redraw) := by
  unfold on_shm_complete
  split
  · next h => exact ⟨⟨rfl, rfl, rfl, rfl, rfl, touched_refl _⟩, fun hn => absurd h hn⟩
  · exact ⟨input_only_refl s, fun _ => rfl⟩

theorem on_client_message_spec {W H : Nat} (s : MainState W H) (e : Event) :
    input_only s (on_client_message s e) ∧ (on_client_message s e).redraw = s.redraw := by
  unfold on_client_message
  split
  · exact ⟨⟨rfl, rfl, rfl, rfl, rfl, touched_refl _⟩, rfl⟩
  · exact ⟨input_only_refl s, rfl⟩

/-- One event: the handler returns, changes nothing but grid cells (to Ready or Firing),
and leaves `redraw` alone unless the event is the presentation-complete event. -/
theorem handle_event_spec {W H : Nat} (hW : 5 ≤ W) (hH : 5 ≤ H) (s : MainState W H)
    (e : Event) :
    ∃ s1, handle_event s e = some s1 ∧ input_only s s1
      ∧ (event_code e ≠ s.shm_complete_event → s1.redraw = s.redraw) := by
  obtain ⟨sa, ha, ia, ra⟩ := on_key_press_spec hW hH s e
  unfold handle_event
  rw [ha, Option.some_bind]
  by_cases hret : sa.returned = true
  · rw [if_pos hret]
    exact ⟨sa, rfl, ia, fun _ => ra⟩
  · rw [if_neg hret]
    obtain ⟨sb, hb, ib, rb⟩ := on_motion_notify_spec sa e
    rw [hb, Option.some_bind]
    obtain ⟨ic, rc⟩ := on_shm_complete_spec sb e
    obtain ⟨id, rd⟩ := on_client_message_spec (on_shm_complete sb e) e
    have iab := input_only_trans ia ib
    refine ⟨_, rfl, input_only_trans iab (input_only_trans ic id), ?_⟩
    intro hn
    have hsb : event_code e ≠ sb.shm_complete_event := by
      rw [iab.2.2.2.1]; exact hn
    rw [rd, rc hsb, rb, ra]

theorem drain_returned {W H : Nat} (s : MainState W H) (hs : s.returned = true)
    (evs : List Event) : drain s evs = some s := by
  cases evs with
  | nil => rfl
  | cons e es => simp only [drain, hs, if_true]

theorem drain_spec {W H : Nat} (hW : 5 ≤ W) (hH : 5 ≤ H) (evs : List Event)
    (s : MainState W H) :
    ∃ s1, drain s evs = some s1 ∧ input_only s s1
      ∧ ((∀ e ∈ evs, event_code e ≠ s.shm_complete_event) → s1.redraw = s.redraw) := by
  induction evs generalizing s with
  | nil => exact ⟨s, rfl, input_only_refl s, fun _ => rfl⟩
  | cons e es ih =>
    by_cases hs : s.returned = true
    · exact ⟨s, drain_returned s hs _, input_only_refl s, fun _ => rfl⟩
    · obtain ⟨s1, h1, i1, r1⟩ := handle_event_spec hW hH s e
      obtain ⟨s2, h2, i2, r2⟩ := ih s1
      refine ⟨s2, ?_, input_only_trans i1 i2, ?_⟩
      · simp only [drain, if_neg hs, h1, Option.some_bind, h2]
      · intro hall
        have he := hall e (List.mem_cons_self e es)
        have hes : ∀ e1 ∈ es, event_code e1 ≠ s1.shm_complete_event := by
          intro e1 h
          rw [i1.2.2.2.1]
          exact hall e1 (List.mem_cons_of_mem e h)
        rw [r2 hes, r1 he]

theorem drain_append {W H : Nat} (a b : List Event) (s : MainState W H) :
    drain s (a ++ b) = (drain s a).bind fun s1 => drain s1 b := by
  induction a generalizing s with
  | nil => rfl
  | cons e es ih =>
    by_cases hs : s.returned = true
    · simp only [List.cons_append, drain, if_pos hs, Option.some_bind, drain_returned s hs b]
    · simp only [List.cons_append, drain, if_neg hs]
      cases handle_event s e with
      | none => rfl
      | some s1 => exact ih s1


/-! ## Lemmas: invariants -/

theorem spec_rule_valid (s c : Nat) : valid_state (spec_rule s c) := by
  unfold spec_rule valid_state
  split
  · split
    · exact Or.inr (Or.inl rfl)
    · exact Or.inl rfl
  · split
    · exact Or.inr (Or.inr rfl)
    · exact Or.inl rfl

/-- Called with a zero scratch buffer, the pass returns and publishes only valid states. -/
theorem simulation_step_valid {W H : Nat} (g : Grid W H) :
    ∃ g1, simulation_step W H g (zeroed W H) = some (g1, zeroed W H)
      ∧ ∀ i j, valid_state (g1 i j) := by
  refine ⟨fun i j => next_cell g (zeroed W H) i.val j.val, simulation_step_eq g _, ?_⟩
  intro i j
  show valid_state (next_cell g (zeroed W H) i.val j.val)
  rw [next_cell_zeroed]
  exact spec_rule_valid _ _

theorem touched_valid {W H : Nat} {p q : Grid W H} (h : touched p q)
    (hp : ∀ i j, valid_state (p i j)) : ∀ i j, valid_state (q i j) := by
  intro i j
  rcases h i j with e | e | e
  · rw [e]; exact hp i j
  · exact Or.inl e
  · exact Or.inr (Or.inl e)

theorem input_only_inv {W H : Nat} {s s1 : MainState W H} (h : input_only s s1)
    (hs : loop_inv s) : loop_inv s1 :=
  ⟨h.1.trans hs.1, touched_valid h.2.2.2.2.2 hs.2⟩

theorem redraw_step_inv {W H : Nat} (s : MainState W H) (hs : loop_inv s) :
    ∃ s1, redraw_step s = some s1 ∧ loop_inv s1 := by
  unfold redraw_step
  split
  · obtain ⟨g1, h1, v1⟩ := simulation_step_valid s.shm_ptr
    rw [hs.1, h1]
    exact ⟨_, rfl, rfl, v1⟩
  · exact ⟨s, rfl, hs⟩

theorem iteration_inv {W H : Nat} (hW : 5 ≤ W) (hH : 5 ≤ H) (s : MainState W H)
    (pending : List Event) (hs : loop_inv s) :
    ∃ s1, iteration s pending = some s1 ∧ loop_inv s1 := by
  obtain ⟨s1, h1, i1, -⟩ := drain_spec hW hH pending s
  have v1 := input_only_inv i1 hs
  unfold iteration
  rw [h1, Option.some_bind]
  split
  · exact ⟨s1, rfl, v1⟩
  · exact redraw_step_inv s1 v1

theorem main_loop_inv {W H : Nat} (hW : 5 ≤ W) (hH : 5 ≤ H) (its : List (List Event))
    (s : MainState W H) (hs : loop_inv s) :
    ∃ s1, main_loop s its = some s1 ∧ loop_inv s1 := by
  induction its generalizing s with
  | nil => exact ⟨s, rfl, hs⟩
  | cons pending rest ih =>
    by_cases hr : s.returned = true
    · exact ⟨s, by simp only [main_loop, if_pos hr], hs⟩
    · obtain ⟨s1, h1, v1⟩ := iteration_inv hW hH s pending hs
      obtain ⟨s2, h2, v2⟩ := ih s1 v1
      exact ⟨s2, by simp only [main_loop, if_neg hr, h1, Option.some_bind, h2], v2⟩

theorem startup_inv (W H ce atom : Nat) : loop_inv (startup W H ce atom) :=
  ⟨rfl, fun _ _ => Or.inl rfl⟩

theorem apply_op_inv {W H : Nat} (hW : 5 ≤ W) (hH : 5 ≤ H) (op : GridOp)
    (s : Grid W H × Grid W H) (hs : s.2 = zeroed W H ∧ ∀ i j, valid_state (s.1 i j)) :
    ∃ s1, apply_op W H s op = some s1 ∧ s1.2 = zeroed W H ∧ ∀ i j, valid_state (s1.1 i j) := by
  cases op with
  | step =>
    obtain ⟨g1, h1, v1⟩ := simulation_step_valid s.1
    refine ⟨(g1, zeroed W H), ?_, rfl, v1⟩
    simp only [apply_op, hs.1, h1]
  | pointer px py =>
    obtain ⟨q, hq, tq⟩ := motion_touched s.1 px py
    exact ⟨(q, s.2), by simp only [apply_op, hq, Option.map_some'], hs.1, touched_valid tq hs.2⟩
  | reset =>
    obtain ⟨q, hq, tq⟩ := key_grid_touched hW hH XK_r s.1
    exact ⟨(q, s.2), by simp only [apply_op, hq, Option.map_some'], hs.1, touched_valid tq hs.2⟩
  | stamp_block =>
    obtain ⟨q, hq, tq⟩ := key_grid_touched hW hH XK_s s.1
    exact ⟨(q, s.2), by simp only [apply_op, hq, Option.map_some'], hs.1, touched_valid tq hs.2⟩
  | stamp_horizontal =>
    obtain ⟨q, hq, tq⟩ := key_grid_touched hW hH XK_a s.1
    exact ⟨(q, s.2), by simp only [apply_op, hq, Option.map_some'], hs.1, touched_valid tq hs.2⟩
  | stamp_vertical =>
    obtain ⟨q, hq, tq⟩ := key_grid_touched hW hH XK_d s.1
    exact ⟨(q, s.2), by simp only [apply_op, hq, Option.map_some'], hs.1, touched_valid tq hs.2⟩

theorem run_ops_inv {W H : Nat} (hW : 5 ≤ W) (hH : 5 ≤ H) (ops : List GridOp)
    (s : Grid W H × Grid W H) (hs : s.2 = zeroed W H ∧ ∀ i j, valid_state (s.1 i j)) :
    ∃ s1, run_ops W H s ops = some s1 ∧ s1.2 = zeroed W H ∧ ∀ i j, valid_state (s1.1 i j) := by
  induction ops generalizing s with
  | nil => exact ⟨s, rfl, hs⟩
  | cons op rest ih =>
    obtain ⟨s1, h1, v1⟩ := apply_op_inv hW hH op s hs
    obtain ⟨s2, h2, v2⟩ := ih s1 v1
    exact ⟨s2, by simp only [run_ops, h1, Option.some_bind, h2], v2⟩

theorem redraw_step_idle {W H : Nat} (s : MainState W H) (h : s.redraw = false) :
    redraw_step s = some s := by
  simp only [redraw_step, h, Bool.false_eq_true, if_false]

theorem main_loop_quiet {W H : Nat} (hW : 5 ≤ W) (hH : 5 ≤ H) (its : List (List Event))
    (s : MainState W H) (h0 : s.redraw = false)
    (hev : ∀ pending ∈ its, ∀ e ∈ pending, event_code e ≠ s.shm_complete_event) :
    ∃ s1, main_loop s its = some s1 ∧ drain s its.flatten = some s1 ∧ input_only s s1
      ∧ s1.redraw = false := by
  induction its generalizing s with
  | nil => exact ⟨s, rfl, rfl, input_only_refl s, h0⟩
  | cons pending rest ih =>
    by_cases hr : s.returned = true
    · exact ⟨s, by simp only [main_loop, if_pos hr], drain_returned s hr _, input_only_refl s, h0⟩
    · obtain ⟨s1, h1, i1, r1⟩ := drain_spec hW hH pending s
      have hr1 : s1.redraw = false := by
        rw [r1 (hev pending (List.mem_cons_self _ _)), h0]
      have hev1 : ∀ p ∈ rest, ∀ e ∈ p, event_code e ≠ s1.shm_complete_event := by
        intro p hp e he
        rw [i1.2.2.2.1]
        exact hev p (List.mem_cons_of_mem _ hp) e he
      obtain ⟨s2, h2, d2, i2, r2⟩ := ih s1 hr1 hev1
      have hit : iteration s pending = some s1 := by
        unfold iteration
        rw [h1, Option.some_bind]
        split
        · rfl
        · exact redraw_step_idle s1 hr1
      refine ⟨s2, ?_, ?_, input_only_trans i1 i2, r2⟩
      · simp only [main_loop, if_neg hr, hit, Option.some_bind, h2]
      · rw [List.flatten_cons, drain_append, h1, Option.some_bind, d2]

theorem win_w_ge : 5 ≤ WIN_W := by decide

theorem win_h_ge : 5 ≤ WIN_H := by decide

/-! ## C3 -/

/-- C3. Closure. From the initial state (grid and scratch buffer all zero), every finite
sequence of the program's grid operations (`simulation_step`, pointer updates with any
coordinates, reset, the three stamp commands) runs to completion and leaves every cell of
the grid Ready, Firing or Refractory; the same holds for the grid after any finite run of
the main loop from start-up, whatever events arrive. -/
theorem reachable_cells_valid (ops : List GridOp) (shm_complete_event delete_win_atom : Nat)
    (its : List (List Event)) :
    (∃ g t : Grid WIN_W WIN_H,
      run_ops WIN_W WIN_H (zeroed WIN_W WIN_H, zeroed WIN_W WIN_H) ops = some (g, t)
      ∧ ∀ i j, g i j = STATE_READY ∨ g i j = STATE_FIRING ∨ g i j = STATE_REFRACTORY)
    ∧ (∃ s : MainState WIN_W WIN_H,
      main_loop (startup WIN_W WIN_H shm_complete_event delete_win_atom) its = some s
      ∧ ∀ i j, s.shm_ptr i j = STATE_READY ∨ s.shm_ptr i j = STATE_FIRING
          ∨ s.shm_ptr i j = STATE_REFRACTORY) := by
  constructor
  · obtain ⟨s1, h1, -, v1⟩ := run_ops_inv win_w_ge win_h_ge ops
      (zeroed WIN_W WIN_H, zeroed WIN_W WIN_H) ⟨rfl, fun _ _ => Or.inl rfl⟩
    exact ⟨s1.1, s1.2, h1, v1⟩
  · obtain ⟨s1, h1, -, v1⟩ := main_loop_inv win_w_ge win_h_ge its
      (startup WIN_W WIN_H shm_complete_event delete_win_atom) (startup_inv _ _ _ _)
    exact ⟨s1, h1, v1⟩

/-! ## C4 -/

/-- C4. Backpressure. From any state of the main loop with the `redraw` latch clear, for
every finite sequence of iterations whose pending events contain no presentation-complete
event (no event whose code equals `shm_complete_event`), the loop runs to completion,
`simulation_step` is never called (`steps` is unchanged), `draw_window` is never called
(`draws` is unchanged), the latch stays clear, the scratch buffer is untouched, and the
final state is the one that handling the events alone produces. -/
theorem no_step_without_completion (s : MainState WIN_W WIN_H) (its : List (List Event))
    (h0 : s.redraw = false)
    (hev : ∀ pending ∈ its, ∀ e ∈ pending, event_code e ≠ s.shm_complete_event) :
    ∃ s1, main_loop s its = some s1
      ∧ s1.steps = s.steps ∧ s1.draws = s.draws ∧ s1.redraw = false
      ∧ s1.backbuffer = s.backbuffer
      ∧ drain s its.flatten = some s1 := by
  obtain ⟨s1, h1, d1, i1, r1⟩ := main_loop_quiet win_w_ge win_h_ge its s h0 hev
  exact ⟨s1, h1, i1.2.1, i1.2.2.1, r1, i1.1, d1⟩

/-- C4 at a concrete run: start-up state with completion code 65, two iterations, the
first with one pointer-motion event at `(3, 4)` pending, the second with none. -/
theorem no_step_without_completion_witness :
    (startup WIN_W WIN_H 65 0).redraw = false
    ∧ (∀ pending ∈ [[Event.mk 6 0 3 4 0], []], ∀ e ∈ pending,
        event_code e ≠ (startup WIN_W WIN_H 65 0).shm_complete_event)
    ∧ ∃ s1, main_loop (startup WIN_W WIN_H 65 0) [[Event.mk 6 0 3 4 0], []] = some s1
      ∧ s1.steps = (startup WIN_W WIN_H 65 0).steps
      ∧ s1.draws = (startup WIN_W WIN_H 65 0).draws ∧ s1.redraw = false
      ∧ s1.backbuffer = (startup WIN_W WIN_H 65 0).backbuffer
      ∧ drain (startup WIN_W WIN_H 65 0) [[Event.mk 6 0 3 4 0], []].flatten = some s1 := by
  have hev : ∀ pending ∈ [[Event.mk 6 0 3 4 0], []], ∀ e ∈ pending,
      event_code e ≠ (startup WIN_W WIN_H 65 0).shm_complete_event := by
    intro pending hp e he
    simp only [List.mem_cons, List.mem_singleton, List.not_mem_nil, or_false] at hp
    rcases hp with hp | hp
    · rw [hp, List.mem_singleton] at he
      rw [he]
      decide
    · rw [hp] at he
      exact absurd he (List.not_mem_nil e)
  exact ⟨rfl, hev, no_step_without_completion (startup WIN_W WIN_H 65 0) [[Event.mk 6 0 3 4 0], []] rfl hev⟩

/-! ## C7 -/

/-- C7. Pointer input. For every grid and every pointer position `(px, py)` (any
integers, in particular all signed 16-bit ones): when `0 ≤ px < WIN_W` and
`0 ≤ py < WIN_H` the handler returns the grid with the cell at column `px`, row `py`
Firing and every other cell unchanged; otherwise it returns the grid unchanged. In both
cases it returns (no out-of-bounds access). -/
theorem pointer_input_frame (g : Grid WIN_W WIN_H) (px py : Int) :
    ((0 ≤ px ∧ px < WIN_W ∧ 0 ≤ py ∧ py < WIN_H) →
      ∃ g1, motion_notify WIN_W WIN_H g px py = some g1
        ∧ (∀ i j, (i.val : Int) = py ∧ (j.val : Int) = px → g1 i j = STATE_FIRING)
        ∧ (∀ i j, ¬ ((i.val : Int) = py ∧ (j.val : Int) = px) → g1 i j = g i j))
    ∧ (¬ (0 ≤ px ∧ px < WIN_W ∧ 0 ≤ py ∧ py < WIN_H) →
      motion_notify WIN_W WIN_H g px py = some g) := by
  constructor
  · intro h
    refine ⟨_, motion_notify_eq g px py, ?_, ?_⟩
    · intro i j hij
      rw [if_pos h]
      exact if_pos hij
    · intro i j hij
      rw [if_pos h]
      exact if_neg hij
  · intro h
    rw [motion_notify_eq, if_neg h]

/-! ## C8 -/

/-- C8. Stamp commands. For every grid, key `s` returns the grid with Firing written at the
2x2 block of rows `H/2..H/2+1`, columns `W/2..W/2+1`; key `a` writes rows `H/2..H/2+1` at
columns `W/2-1` and `W/2+2` (one column left and one column right of the block); key `d`
writes columns `W/2..W/2+1` at rows `H/2-1` and `H/2+2` (one row above and one row below
the block). Each command writes exactly four distinct cells and leaves every other cell
of the grid as it was. -/
theorem stamp_commands_frame (g : Grid WIN_W WIN_H) :
    (key_grid WIN_W WIN_H XK_s g = some (fun i j =>
        if (i.val, j.val) ∈ [(128, 128), (128, 129), (129, 128), (129, 129)]
        then STATE_FIRING else g i j))
    ∧ (key_grid WIN_W WIN_H XK_a g = some (fun i j =>
        if (i.val, j.val) ∈ [(128, 127), (128, 130), (129, 127), (129, 130)]
        then STATE_FIRING else g i j))
    ∧ (key_grid WIN_W WIN_H XK_d g = some (fun i j =>
        if (i.val, j.val) ∈ [(127, 128), (127, 129), (130, 128), (130, 129)]
        then STATE_FIRING else g i j))
    ∧ block_cells WIN_W WIN_H = [(128, 128), (128, 129), (129, 128), (129, 129)]
    ∧ horizontal_cells WIN_W WIN_H = [(128, 127), (128, 130), (129, 127), (129, 130)]
    ∧ vertical_cells WIN_W WIN_H = [(127, 128), (127, 129), (130, 128), (130, 129)]
    ∧ (block_cells WIN_W WIN_H).Nodup ∧ (block_cells WIN_W WIN_H).length = 4
    ∧ (horizontal_cells WIN_W WIN_H).Nodup ∧ (horizontal_cells WIN_W WIN_H).length = 4
    ∧ (vertical_cells WIN_W WIN_H).Nodup ∧ (vertical_cells WIN_W WIN_H).length = 4
    ∧ WIN_H / 2 = 128 ∧ WIN_W / 2 = 128 := by
  have hb : block_cells WIN_W WIN_H = [(128, 128), (128, 129), (129, 128), (129, 129)] := by
    decide
  have hh : horizontal_cells WIN_W WIN_H
      = [(128, 127), (128, 130), (129, 127), (129, 130)] := by decide
  have hv : vertical_cells WIN_W WIN_H = [(127, 128), (127, 129), (130, 128), (130, 129)] := by
    decide
  refine ⟨?_, ?_, ?_, hb, hh, hv, ?_, ?_, ?_, ?_, ?_, ?_, ?_, ?_⟩
  · rw [key_grid_s, stamp_block_eq win_w_ge win_h_ge, hb]; rfl
  · rw [key_grid_a, stamp_horizontal_eq win_w_ge win_h_ge, hh]; rfl
  · rw [key_grid_d, stamp_vertical_eq win_w_ge win_h_ge, hv]; rfl
  all_goals decide

/-! ## C10 -/

/-- C10. Scratch-buffer invariant. The back buffer is all zero at start-up; handling an
event always returns and never changes the back buffer; `simulation_step` returns with the
back buffer all zero for every grid and every scratch content; hence after any finite run
of the main loop from start-up, and after draining any further pending events (the point
where `simulation_step` is called), the back buffer is all zero. -/
theorem backbuffer_zero_invariant (shm_complete_event delete_win_atom : Nat)
    (s : MainState WIN_W WIN_H) (e : Event) (g t : Grid WIN_W WIN_H)
    (its : List (List Event)) (pending : List Event) :
    (startup WIN_W WIN_H shm_complete_event delete_win_atom).backbuffer = zeroed WIN_W WIN_H
    ∧ (∃ s1, handle_event s e = some s1 ∧ s1.backbuffer = s.backbuffer)
    ∧ (∃ g1, simulation_step WIN_W WIN_H g t = some (g1, zeroed WIN_W WIN_H))
    ∧ (∃ s1 s2, main_loop (startup WIN_W WIN_H shm_complete_event delete_win_atom) its = some s1
        ∧ s1.backbuffer = zeroed WIN_W WIN_H
        ∧ drain s1 pending = some s2
        ∧ s2.backbuffer = zeroed WIN_W WIN_H) := by
  refine ⟨rfl, ?_, ⟨_, simulation_step_eq g t⟩, ?_⟩
  · obtain ⟨s1, h1, i1, -⟩ := handle_event_spec win_w_ge win_h_ge s e
    exact ⟨s1, h1, i1.1⟩
  · obtain ⟨s1, h1, v1⟩ := main_loop_inv win_w_ge win_h_ge its
      (startup WIN_W WIN_H shm_complete_event delete_win_atom) (startup_inv _ _ _ _)
    obtain ⟨s2, h2, i2, -⟩ := drain_spec win_w_ge win_h_ge pending s1
    exact ⟨s1, s2, h1, v1.1, h2, i2.1.trans v1.1⟩

end Brain
